import Mathlib

/-!
Shallow embedding of the X-glish code-mixing backend.

Python sources embedded here:
* `xglish_mixer.py` — token classifier (`is_keep_word`), cohesion corrector,
  chunk masker, restorer/romanizer pipeline (`process_mixed_english`), and the
  batch entry point (`process_batch_mixed_english`);
* `language_rules.py` — schwa-deletion tables and per-language phonetic data;
* `translator_service.py` — fail-open translation wrappers and the
  micro-batching scheduler (`IndicTransBatchProcessor`).

External collaborators (the MT engine, the transliteration engine, the POS
tagger/tokenizers, and the on-disk resource tables loaded by
`resource_loader.py`) are modelled as oracle parameters gathered in `Env`-style
structures.  Machine floats produced by `wordfreq.zipf_frequency` are modelled
as rationals.  String-scanning helpers mirroring Python regular expressions are
written with an explicit fuel argument (always instantiated with the string
length, which bounds the number of scanning steps) so that they stay
structurally recursive and evaluate by `decide`/`rfl`.
-/

namespace Xglish

/-- Boolean test that `p` is a prefix of `s` (as char lists). -/
def listPre : List Char → List Char → Bool
  | [], _ => true
  | _ :: _, [] => false
  | a :: as, b :: bs => a == b && listPre as bs

/-- Python `s.startswith(p)`. -/
def strStarts (s p : String) : Bool := listPre p.data s.data

/-- Python `s.endswith(p)`. -/
def strEnds (s p : String) : Bool := listPre p.data.reverse s.data.reverse

/-- Python `s.lower()` (ASCII case folding suffices for the claims). -/
def pyLower (s : String) : String := (s.data.map Char.toLower).asString

/-- Python `s.strip()`. -/
def pyStrip (s : String) : String :=
  (((s.data.dropWhile Char.isWhitespace).reverse.dropWhile Char.isWhitespace).reverse).asString

/-- Python `sep.join(l)`. -/
def joinSep (sep : String) (l : List String) : String :=
  (List.intercalate sep.data (l.map (fun t => t.data))).asString

/-- Python `s.split()` — split on whitespace runs, dropping empty pieces.
The first argument is fuel (instantiated with the length of the char list). -/
def splitWsF : Nat → List Char → List (List Char)
  | 0, _ => []
  | _ + 1, [] => []
  | f + 1, c :: rest =>
    if c.isWhitespace then splitWsF f rest
    else (c :: rest.takeWhile (fun d => !d.isWhitespace)) ::
      splitWsF f (rest.dropWhile (fun d => !d.isWhitespace))

/-- Python `s.split()`. -/
def pySplitWs (s : String) : List String :=
  (splitWsF s.data.length s.data).map List.asString

/-- Python `str.replace(pat, rep)` — all non-overlapping occurrences, left to
right.  Fuel-indexed scanner. -/
def replAllF (pat rep : List Char) : Nat → List Char → List Char
  | 0, l => l
  | _ + 1, [] => []
  | f + 1, c :: rest =>
    if !pat.isEmpty && listPre pat (c :: rest) then
      rep ++ replAllF pat rep f ((c :: rest).drop pat.length)
    else c :: replAllF pat rep f rest

/-- Python `s.replace(pat, rep)`. -/
def pyReplace (s pat rep : String) : String :=
  (replAllF pat.data rep.data s.data.length s.data).asString

/-- Decimal digit expansion (most significant first); fuel-indexed, the fuel is
instantiated with the number itself, which bounds the recursion depth. -/
def decDigitsF : Nat → Nat → List Nat
  | 0, n => [n % 10]
  | f + 1, n => if n < 10 then [n] else decDigitsF f (n / 10) ++ [n % 10]

/-- Embedding of Python `str(n)` for a natural number. -/
def decRepr (n : Nat) : String := ((decDigitsF n n).map Nat.digitChar).asString

/-- Value of a digit list, used to invert `decDigitsF`. -/
def decVal (l : List Nat) : Nat := l.foldl (fun a d => 10 * a + d) 0

theorem decVal_append_last (l : List Nat) (d : Nat) :
    decVal (l ++ [d]) = 10 * decVal l + d := by
  simp [decVal, List.foldl_append]

theorem decVal_decDigitsF : ∀ f n, n ≤ f → decVal (decDigitsF f n) = n := by
  intro f
  induction f with
  | zero =>
    intro n h
    have : n = 0 := Nat.le_zero.mp h
    subst this
    simp [decDigitsF, decVal]
  | succ f ih =>
    intro n h
    by_cases hn : n < 10
    · simp [decDigitsF, hn, decVal]
    · have hpos : 0 < n := by omega
      have hdiv : n / 10 < n := Nat.div_lt_self hpos (by omega)
      have h1 : n / 10 ≤ f := by omega
      simp only [decDigitsF, if_neg hn]
      rw [decVal_append_last, ih _ h1]
      omega

theorem decDigitsF_lt_ten : ∀ f n, ∀ d ∈ decDigitsF f n, d < 10 := by
  intro f
  induction f with
  | zero =>
    intro n d hd
    simp [decDigitsF] at hd
    omega
  | succ f ih =>
    intro n d hd
    by_cases hn : n < 10
    · simp [decDigitsF, hn] at hd; omega
    · simp only [decDigitsF, if_neg hn, List.mem_append, List.mem_singleton] at hd
      rcases hd with hd | hd
      · exact ih _ _ hd
      · omega

/-- Inverse of `Nat.digitChar` on decimal digits. -/
def charToDigit (c : Char) : Nat := c.toNat - 48

theorem charToDigit_digitChar : ∀ d < 10, charToDigit (Nat.digitChar d) = d := by decide

theorem map_charToDigit_digitChar (l : List Nat) (hl : ∀ d ∈ l, d < 10) :
    (l.map Nat.digitChar).map charToDigit = l := by
  induction l with
  | nil => simp
  | cons a t ih =>
    simp only [List.map_cons, List.cons.injEq]
    exact ⟨charToDigit_digitChar a (hl a (by simp)),
      ih (fun d hd => hl d (by simp [hd]))⟩

theorem decRepr_injective : Function.Injective decRepr := by
  intro a b h
  have hd : (decDigitsF a a).map Nat.digitChar = (decDigitsF b b).map Nat.digitChar := by
    have h2 := congrArg String.data h
    simpa [decRepr] using h2
  have hdig : decDigitsF a a = decDigitsF b b := by
    have h3 := congrArg (List.map charToDigit) hd
    rwa [map_charToDigit_digitChar _ (decDigitsF_lt_ten a a),
      map_charToDigit_digitChar _ (decDigitsF_lt_ten b b)] at h3
  have := congrArg decVal hdig
  rwa [decVal_decDigitsF a a le_rfl, decVal_decDigitsF b b le_rfl] at this

/-- Source `SCRIPT_MAP` from `language_rules.py`. -/
def SCRIPT_MAP : List (String × String) :=
  [("hi", "Devanagari"), ("bn", "Bengali"), ("ta", "Tamil"), ("te", "Telugu"),
   ("mr", "Devanagari"), ("gu", "Gujarati"), ("kn", "Kannada"), ("ml", "Malayalam"),
   ("pa", "Gurmukhi"), ("or", "Oriya"), ("as", "Assamese"), ("ur", "Urdu"),
   ("sa", "Devanagari"), ("ne", "Devanagari"), ("sd", "Arabic"), ("ks", "Arabic"),
   ("gom", "Devanagari"), ("mai", "Devanagari"), ("doi", "Devanagari"),
   ("brx", "Devanagari"), ("mni", "Bengali"), ("sat", "OlChiki")]

/-- `get_script_name` from `language_rules.py`: `SCRIPT_MAP.get(code, "Devanagari")`. -/
def get_script_name (lang : String) : String :=
  (SCRIPT_MAP.lookup lang).getD "Devanagari"

/-- Source `SCHWA_PROTECTION_RULES` dict, with the `.get(lang, ())` default
used by `process_mixed_english` folded in. -/
def SCHWA_PROTECTION_RULES (lang : String) : List String :=
  if lang = "hi" then ["na", "la", "ta", "da", "ga", "ya", "ka", "ra", "ha", "ma", "ja"]
  else if lang = "mr" then ["na", "la", "ta", "da", "ga", "ya", "ka", "ra", "ha", "ma", "ja"]
  else if lang = "gu" then ["na", "la", "ta", "da", "ga", "ya", "ka"]
  else if lang = "bn" then ["o", "a"]
  else if lang = "pa" then ["na", "la", "ta"]
  else if lang = "ur" then ["ah", "eh"]
  else if lang = "ta" then ["a", "i", "u", "e", "o"]
  else if lang = "te" then ["a", "i", "u", "e", "o"]
  else if lang = "kn" then ["a", "i", "u", "e", "o"]
  else if lang = "ml" then ["a", "i", "u", "e", "o"]
  else if lang = "sa" then ["a", "i", "u", "e", "o", "m", "h"]
  else []

/-- Source `PHONETIC_FIXES` dict (entries in insertion order), with the
`.get(lang, {})` default folded in. -/
def PHONETIC_FIXES (lang : String) : List (String × String) :=
  if lang = "hi" then [("Phr", "Fr"), ("phr", "fr"), ("Ph", "F"), ("ph", "f"), ("v", "v"), ("w", "v")]
  else if lang = "mr" then [("Phr", "Fr"), ("phr", "fr"), ("v", "v"), ("zh", "jh")]
  else if lang = "bn" then [("v", "b"), ("V", "B"), ("w", "b"), ("a", "o")]
  else if lang = "or" then [("v", "b"), ("w", "b"), ("a", "o")]
  else if lang = "as" then [("v", "b"), ("w", "b"), ("ch", "s")]
  else if lang = "ta" then [("zh", "l"), ("th", "dh")]
  else if lang = "te" then [("th", "d"), ("T", "t")]
  else if lang = "ml" then [("zh", "l"), ("th", "d")]
  else if lang = "ur" then [("q", "k"), ("z", "j")]
  else if lang = "pa" then [("bh", "p"), ("dh", "t")]
  else []

/-- The `NO_SCHWA_DELETION` set inside `is_schwa_deletion_enabled`. -/
def NO_SCHWA_DELETION : List String :=
  ["ta", "te", "kn", "ml", "sa", "ne", "as", "or", "bn", "mni", "sat"]

/-- `is_schwa_deletion_enabled` from `language_rules.py`. -/
def is_schwa_deletion_enabled (lang : String) : Bool :=
  !(NO_SCHWA_DELETION.contains lang)

/-- Oracle bundle for external collaborators and loaded resource tables. -/
structure Env where
  tech : String → Bool
  manual : String → Bool
  formality : String → Option ℚ
  zipf : String → ℚ
  tags : String → Option String
  translate : String → String → String
  translit : String → String → String → String
  tokenize : String → List String
  wordTokenize : String → List String
  isIndic : Bool

/-- The `CONTRACTIONS` set in `is_keep_word`. -/
def CONTRACTIONS : List String :=
  ["n\x27t", "\x27s", "\x27m", "\x27re", "\x27ll", "\x27ve", "\x27d", "nt"]

/-- Python truthiness of an optional tag (`None` and `""` are falsy). -/
def tagTruthy : Option String → Bool
  | none => false
  | some s => !(s == "")

/-- `tag.startswith(p)` on an optional tag. -/
def tagStarts (t : Option String) (p : String) : Bool :=
  match t with
  | none => false
  | some s => strStarts s p

/-- Python `word.isupper()`: at least one cased character and every cased
character uppercase. -/
def pyIsUpper (s : String) : Bool :=
  s.data.any (fun c => c.isUpper || c.isLower) &&
  s.data.all (fun c => !(c.isUpper || c.isLower) || c.isUpper)

/-- First character uppercase (`word[0].isupper()`). -/
def firstUpper (s : String) : Bool :=
  match s.data with
  | [] => false
  | c :: _ => c.isUpper

/-- Rule 4 of the classifier (frequency fallback), `xglish_mixer.py` lines 56-63. -/
def keepFreq (env : Env) (word : String) (tag : Option String) (thr : ℚ) : Bool :=
  let freq := env.zipf word
  if freq < thr then true
  else if tagTruthy tag && tagStarts tag "NN" then decide (freq < thr + 3 / 2)
  else false

/-- `is_keep_word` from `xglish_mixer.py` (lines 17-63). -/
def is_keep_word (env : Env) (word : String) (tag : Option String) (index : Nat) (thr : ℚ) : Bool :=
  let word_low := pyLower word
  if pyStrip word == "" then false
  else if CONTRACTIONS.contains word_low || strEnds word_low "n\x27t" then false
  else if env.tech word_low then true
  else if env.manual word_low then true
  else if tagTruthy tag && tagStarts tag "VB" then false
  else
    match env.formality word_low with
    | some scale => decide ((10 : ℚ) - thr ≤ scale)
    | none =>
      if decide (1 < word.length) && pyIsUpper word then true
      else if decide (1 < word.length) && firstUpper word then
        if index == 0 then
          if tagTruthy tag && tagStarts tag "NNP" then true
          else keepFreq env word tag thr
        else true
      else keepFreq env word tag thr

/-- Python `re.sub(r"[^\w\s\x27-]", "", word)` used to clean tokens before
classification. -/
def pyClean (s : String) : String :=
  (s.data.filter
    (fun c => c.isAlphanum || c == '_' || c.isWhitespace || c == '\x27' || c == '-')).asString

/-- Tag lookup `tags.get(clean) or tags.get(word)` (Python `or` keeps the
first truthy operand). -/
def tagLookup (env : Env) (clean w : String) : Option String :=
  if tagTruthy (env.tags clean) then env.tags clean else env.tags w

/-- The `WEAK_TAGS` set of the cohesion correction pass. -/
def WEAK_TAGS : List String := ["RB", "RBR", "RBS", "IN", "CC", "TO", "DT", "UH", "MD"]

/-- Whether position `i` is eligible for a cohesion flip: not a tech term, and
its tag starts with one of the weak tags (`xglish_mixer.py` lines 110-114). -/
def canFlipAt (env : Env) (words : List String) (i : Nat) : Bool :=
  let w := words.getD i ""
  let clean := pyClean w
  if env.tech (pyLower clean) then false
  else
    let tag := tagLookup env clean w
    tagTruthy tag && WEAK_TAGS.any (fun t => tagStarts tag t)

/-- One iteration of the cohesion loop body at index `i` on the current
decision array `d` (`left_translated` / `right_translated` checks and the
in-place flip). -/
def cohesionStep (cf : Nat → Bool) (d : List Bool) (i : Nat) : List Bool :=
  if d.getD i false && cf i
      && ((decide (0 < i) && !(d.getD (i - 1) false))
        || (decide (i < d.length - 1) && !(d.getD (i + 1) false))) then
    d.set i false
  else d

/-- The in-place cohesion pass (`xglish_mixer.py` lines 106-118): one left to
right sweep over all indices of the decision array (which has one entry per
token, so `range d.length` is `range(len(words))`). -/
def cohesionPass (cf : Nat → Bool) (d : List Bool) : List Bool :=
  (List.range d.length).foldl (cohesionStep cf) d

/-- Prefix of the cohesion sweep: only the loop iterations `0, …, k-1`. -/
def cohesionUpTo (cf : Nat → Bool) (d : List Bool) (k : Nat) : List Bool :=
  (List.range k).foldl (cohesionStep cf) d

/-- Closed-form value of the cohesion pass at index `j`: the left neighbor is
read after its own update (the sweep already visited it), the right neighbor
before any update. -/
def cohesionNew (cf : Nat → Bool) (d : List Bool) : Nat → Bool
  | 0 =>
    if d.getD 0 false && cf 0 && (decide (0 < d.length - 1) && !(d.getD (0 + 1) false)) then
      false
    else d.getD 0 false
  | j + 1 =>
    if d.getD (j + 1) false && cf (j + 1)
        && ((!(cohesionNew cf d j))
          || (decide (j + 1 < d.length - 1) && !(d.getD (j + 1 + 1) false))) then
      false
    else d.getD (j + 1) false

theorem getD_set_self (l : List Bool) (i : Nat) (b : Bool) (h : i < l.length) :
    (l.set i b).getD i false = b := by
  simp [List.getD_eq_getElem?_getD, List.getElem?_set_self, h]

theorem getD_set_ne (l : List Bool) (i j : Nat) (b : Bool) (h : i ≠ j) :
    (l.set i b).getD j false = l.getD j false := by
  simp [List.getD_eq_getElem?_getD, List.getElem?_set_ne h]

theorem cohesionStep_length (cf : Nat → Bool) (d : List Bool) (i : Nat) :
    (cohesionStep cf d i).length = d.length := by
  unfold cohesionStep
  split <;> simp

theorem cohesionStep_getD_ne (cf : Nat → Bool) (d : List Bool) (i j : Nat) (h : i ≠ j) :
    (cohesionStep cf d i).getD j false = d.getD j false := by
  unfold cohesionStep
  split
  · exact getD_set_ne d i j false h
  · rfl

theorem cohesionUpTo_succ (cf : Nat → Bool) (d : List Bool) (k : Nat) :
    cohesionUpTo cf d (k + 1) = cohesionStep cf (cohesionUpTo cf d k) k := by
  unfold cohesionUpTo
  rw [List.range_succ, List.foldl_append]
  rfl

theorem cohesionUpTo_length (cf : Nat → Bool) (d : List Bool) :
    ∀ k, (cohesionUpTo cf d k).length = d.length := by
  intro k
  induction k with
  | zero => rfl
  | succ k ih => rw [cohesionUpTo_succ, cohesionStep_length, ih]

theorem cohesionUpTo_getD_ge (cf : Nat → Bool) (d : List Bool) :
    ∀ k j, k ≤ j → (cohesionUpTo cf d k).getD j false = d.getD j false := by
  intro k
  induction k with
  | zero => intro j _; rfl
  | succ k ih =>
    intro j hj
    rw [cohesionUpTo_succ, cohesionStep_getD_ne cf _ k j (by omega), ih j (by omega)]

theorem cohesionUpTo_getD_stable (cf : Nat → Bool) (d : List Bool) :
    ∀ k j, j < k → (cohesionUpTo cf d k).getD j false = (cohesionUpTo cf d (j + 1)).getD j false := by
  intro k
  induction k with
  | zero => intro j hj; omega
  | succ k ih =>
    intro j hj
    rcases Nat.lt_succ_iff_lt_or_eq.mp hj with h | h
    · rw [cohesionUpTo_succ, cohesionStep_getD_ne cf _ k j (by omega), ih j h]
    · subst h; rfl

theorem cohesionStep_getD_self (cf : Nat → Bool) (d : List Bool) (i : Nat) (hi : i < d.length) :
    (cohesionStep cf d i).getD i false =
      if d.getD i false && cf i
          && ((decide (0 < i) && !(d.getD (i - 1) false))
            || (decide (i < d.length - 1) && !(d.getD (i + 1) false))) then false
      else d.getD i false := by
  unfold cohesionStep
  split
  · rw [getD_set_self _ i false hi]
  · rfl

theorem cohesionUpTo_getD_main (cf : Nat → Bool) (d : List Bool) :
    ∀ j, j < d.length → (cohesionUpTo cf d (j + 1)).getD j false = cohesionNew cf d j := by
  intro j
  induction j using Nat.strong_induction_on with
  | _ j ih =>
    intro hj
    rw [cohesionUpTo_succ]
    rw [cohesionStep_getD_self cf _ j (by rw [cohesionUpTo_length]; exact hj)]
    rw [cohesionUpTo_length]
    cases j with
    | zero =>
      rw [cohesionUpTo_getD_ge cf d 0 0 le_rfl, cohesionUpTo_getD_ge cf d 0 (0 + 1) (by omega)]
      simp only [show (decide (0 < 0) : Bool) = false from rfl, Bool.false_and, Bool.false_or]
      rfl
    | succ j =>
      have hleft : (cohesionUpTo cf d (j + 1)).getD (j + 1 - 1) false = cohesionNew cf d j := by
        simp only [Nat.add_sub_cancel]
        rw [cohesionUpTo_getD_stable cf d (j + 1) j (by omega)]
        exact ih j (by omega) (by omega)
      rw [hleft, cohesionUpTo_getD_ge cf d (j + 1) (j + 1) le_rfl,
        cohesionUpTo_getD_ge cf d (j + 1) (j + 1 + 1) (by omega)]
      simp only [show (decide (0 < j + 1) : Bool) = true from by simp, Bool.true_and]
      rfl

theorem cohesionPass_getD (cf : Nat → Bool) (d : List Bool) (j : Nat) (hj : j < d.length) :
    (cohesionPass cf d).getD j false = cohesionNew cf d j := by
  have h1 : cohesionPass cf d = cohesionUpTo cf d d.length := rfl
  rw [h1, cohesionUpTo_getD_stable cf d d.length j hj, cohesionUpTo_getD_main cf d j hj]

theorem cohesionPass_length (cf : Nat → Bool) (d : List Bool) :
    (cohesionPass cf d).length = d.length :=
  cohesionUpTo_length cf d d.length

theorem cohesionNew_le (cf : Nat → Bool) (d : List Bool) (j : Nat) :
    cohesionNew cf d j = true → d.getD j false = true := by
  match j with
  | 0 => unfold cohesionNew; split <;> simp_all
  | j + 1 => unfold cohesionNew; split <;> simp_all

/-- Placeholder token text: `"{{<n>}}"` when IndicTrans2 is the active model,
`"VAR_<n>"` otherwise (`xglish_mixer.py` lines 134-137). -/
def mkTokenS (fmt : Bool) (s : String) : String :=
  if fmt then "\x7b\x7b" ++ s ++ "\x7d\x7d" else "VAR_" ++ s

/-- The masking while-loop (`xglish_mixer.py` lines 122-146), fuel-indexed:
each step consumes at least one token, so `l.length` fuel suffices.  Returns
the `masked_words` list and the `kept_words` association list; the inner
chunk-collecting while-loop is the `takeWhile`/`dropWhile` pair. -/
def maskGoF (fmt : Bool) : Nat → List (String × Bool) → Nat → List String × List (String × String)
  | 0, _, _ => ([], [])
  | _ + 1, [], _ => ([], [])
  | f + 1, (w, dec) :: rest, tid =>
    if dec then
      let chunk := w :: (rest.takeWhile (fun p => p.2)).map (fun p => p.1)
      let tok := mkTokenS fmt (decRepr tid)
      let r := maskGoF fmt f (rest.dropWhile (fun p => p.2)) (tid + 1)
      (tok :: r.1, (tok, joinSep " " chunk) :: r.2)
    else
      let r := maskGoF fmt f rest tid
      (w :: r.1, r.2)

/-- The masking phase on a token/decision list. -/
def maskLoop (fmt : Bool) (l : List (String × Bool)) : List String × List (String × String) :=
  maskGoF fmt l.length l 0

/-- Specification-side notion: the maximal runs of consecutive `keep=true`
tokens, fuel-indexed like `maskGoF`. -/
def keepRunsF : Nat → List (String × Bool) → List (List String)
  | 0, _ => []
  | _ + 1, [] => []
  | f + 1, (w, dec) :: rest =>
    if dec then
      (w :: (rest.takeWhile (fun p => p.2)).map (fun p => p.1)) ::
        keepRunsF f (rest.dropWhile (fun p => p.2))
    else keepRunsF f rest

/-- Maximal keep-runs of a token/decision list. -/
def keepRuns (l : List (String × Bool)) : List (List String) := keepRunsF l.length l

/-- Independent count of maximal keep-runs: the number of positions holding
`true` whose predecessor (`prev`, `false` at the start) holds `false`. -/
def countStartsAux (prev : Bool) : List Bool → Nat
  | [] => 0
  | b :: t => (if b && !prev then 1 else 0) + countStartsAux b t

/-- Number of maximal runs of `true` in a decision list. -/
def countStarts (ds : List Bool) : Nat := countStartsAux false ds

theorem keepRunsF_fuel_irrel : ∀ f g (l : List (String × Bool)),
    l.length ≤ f → l.length ≤ g → keepRunsF f l = keepRunsF g l := by
  intro f
  induction f with
  | zero =>
    intro g l hf _
    have : l = [] := List.length_eq_zero.mp (Nat.le_zero.mp hf)
    subst this
    cases g <;> rfl
  | succ f ih =>
    intro g l hf hg
    cases l with
    | nil => cases g <;> rfl
    | cons p rest =>
      cases g with
      | zero => simp at hg
      | succ g =>
        obtain ⟨w, dec⟩ := p
        simp only [keepRunsF]
        cases dec with
        | true =>
          rw [if_pos rfl, if_pos rfl]
          have h1 : (rest.dropWhile (fun p => p.2)).length ≤ rest.length :=
            (List.dropWhile_sublist _).length_le
          rw [ih g (rest.dropWhile (fun p => p.2))
            (by simp at hf; omega) (by simp at hg; omega)]
        | false =>
          rw [if_neg (by simp), if_neg (by simp)]
          exact ih g rest (by simp at hf; omega) (by simp at hg; omega)

theorem maskGoF_kept (fmt : Bool) : ∀ f (l : List (String × Bool)) (tid : Nat),
    l.length ≤ f →
    (maskGoF fmt f l tid).2 =
      (List.enumFrom tid (keepRunsF f l)).map
        (fun kr => (mkTokenS fmt (decRepr kr.1), joinSep " " kr.2)) := by
  intro f
  induction f with
  | zero => intro l tid _; rfl
  | succ f ih =>
    intro l tid hl
    cases l with
    | nil => rfl
    | cons p rest =>
      obtain ⟨w, dec⟩ := p
      simp only [maskGoF, keepRunsF]
      cases dec with
      | true =>
        rw [if_pos rfl, if_pos rfl]
        have h1 : (rest.dropWhile (fun p => p.2)).length ≤ rest.length :=
          (List.dropWhile_sublist _).length_le
        rw [ih (rest.dropWhile (fun p => p.2)) (tid + 1) (by simp at hl; omega)]
        simp [List.enumFrom_cons]
      | false =>
        rw [if_neg (by simp), if_neg (by simp)]
        exact ih rest tid (by simp at hl; omega)

theorem countStartsAux_all_true (rem : List Bool) :
    ∀ run : List Bool, (∀ b ∈ run, b = true) →
      countStartsAux true (run ++ rem) = countStartsAux true rem := by
  intro run
  induction run with
  | nil => intro _; rfl
  | cons b t ih =>
    intro hall
    have hb : b = true := hall b (by simp)
    subst hb
    show (if (true && !true) = true then 1 else 0) + countStartsAux true (t ++ rem)
      = countStartsAux true rem
    rw [ih (fun c hc => hall c (by simp [hc]))]
    simp

theorem countStartsAux_head_false : ∀ rem : List Bool,
    (rem = [] ∨ rem.head? = some false) →
    countStartsAux true rem = countStartsAux false rem := by
  intro rem h
  cases rem with
  | nil => rfl
  | cons b t =>
    rcases h with h | h
    · simp at h
    · simp only [List.head?_cons, Option.some.injEq] at h
      subst h
      simp [countStartsAux]

theorem keepRunsF_length : ∀ f (l : List (String × Bool)),
    l.length ≤ f → (keepRunsF f l).length = countStarts (l.map (fun p => p.2)) := by
  intro f
  induction f with
  | zero =>
    intro l hf
    have : l = [] := List.length_eq_zero.mp (Nat.le_zero.mp hf)
    subst this
    rfl
  | succ f ih =>
    intro l hf
    cases l with
    | nil => rfl
    | cons p rest =>
      obtain ⟨w, dec⟩ := p
      simp only [keepRunsF, List.map_cons]
      cases dec with
      | true =>
        rw [if_pos rfl]
        simp only [List.length_cons]
        have h1 : (rest.dropWhile (fun p => p.2)).length ≤ rest.length :=
          (List.dropWhile_sublist _).length_le
        rw [ih (rest.dropWhile (fun p => p.2)) (by simp at hf; omega)]
        have hsplit : rest.map (fun p => p.2) =
            (rest.takeWhile (fun p => p.2)).map (fun p => p.2)
              ++ (rest.dropWhile (fun p => p.2)).map (fun p => p.2) := by
          rw [← List.map_append, List.takeWhile_append_dropWhile]
        unfold countStarts
        show countStarts ((rest.dropWhile (fun p => p.2)).map (fun p => p.2)) + 1
          = (if (true && !false) = true then 1 else 0)
            + countStartsAux true (rest.map (fun p => p.2))
        rw [hsplit, countStartsAux_all_true]
        · rw [countStartsAux_head_false]
          · unfold countStarts
            simp [Nat.add_comm]
          · cases hdw : rest.dropWhile (fun p => p.2) with
            | nil => left; simp [hdw]
            | cons q t =>
              right
              have hq : ¬(q.2 = true) := by
                have := List.head?_dropWhile_not (fun p => p.2) rest
                rw [hdw] at this
                simpa using this
              simp [hdw, Bool.eq_false_iff.mpr hq]
        · intro b hb
          simp only [List.mem_map] at hb
          obtain ⟨q, hq, hqb⟩ := hb
          have := List.mem_takeWhile_imp hq
          rw [← hqb]
          exact this
      | false =>
        rw [if_neg (by simp)]
        rw [ih rest (by simp at hf; omega)]
        unfold countStarts
        simp [countStartsAux]

theorem string_append_left_cancel {p a b : String} (h : p ++ a = p ++ b) : a = b := by
  apply String.ext
  have h2 := congrArg String.data h
  rw [String.data_append, String.data_append] at h2
  exact List.append_cancel_left h2

theorem string_append_right_cancel {s a b : String} (h : a ++ s = b ++ s) : a = b := by
  apply String.ext
  have h2 := congrArg String.data h
  rw [String.data_append, String.data_append] at h2
  exact List.append_cancel_right h2

theorem mkTokenS_inj (fmt : Bool) {a b : String} (h : mkTokenS fmt a = mkTokenS fmt b) :
    a = b := by
  cases fmt with
  | false => exact string_append_left_cancel h
  | true =>
    unfold mkTokenS at h
    rw [if_pos rfl, if_pos rfl] at h
    exact string_append_left_cancel (string_append_right_cancel h)

theorem mkTokenS_decRepr_ne (fmt : Bool) {j k : Nat} (h : j ≠ k) :
    mkTokenS fmt (decRepr j) ≠ mkTokenS fmt (decRepr k) := by
  intro heq
  exact h (decRepr_injective (mkTokenS_inj fmt heq))

theorem lookup_kept_runs (fmt : Bool) : ∀ (rs : List (List String)) (t k : Nat),
    k < rs.length →
    List.lookup (mkTokenS fmt (decRepr (t + k)))
        ((List.enumFrom t rs).map
          (fun kr => (mkTokenS fmt (decRepr kr.1), joinSep " " kr.2)))
      = some (joinSep " " (rs.getD k [])) := by
  intro rs
  induction rs with
  | nil => intro t k hk; simp at hk
  | cons r rs ih =>
    intro t k hk
    simp only [List.enumFrom_cons, List.map_cons, List.lookup]
    cases k with
    | zero =>
      simp only [Nat.add_zero, beq_self_eq_true, List.getD_cons_zero]
    | succ k =>
      have hne : mkTokenS fmt (decRepr (t + (k + 1))) ≠ mkTokenS fmt (decRepr t) :=
        mkTokenS_decRepr_ne fmt (by omega)
      rw [beq_eq_false_iff_ne.mpr hne]
      have : t + (k + 1) = (t + 1) + k := by omega
      rw [this]
      simpa using ih (t + 1) k (by simpa using hk)

theorem maskGoF_nil (fmt : Bool) (f tid : Nat) : maskGoF fmt f [] tid = ([], []) := by
  cases f <;> rfl

theorem maskGoF_all_keep (fmt : Bool) (f : Nat) (l : List (String × Bool)) (tid : Nat)
    (hf : l.length ≤ f) (hne : l ≠ []) (hall : ∀ p ∈ l, p.2 = true) :
    maskGoF fmt f l tid =
      ([mkTokenS fmt (decRepr tid)],
        [(mkTokenS fmt (decRepr tid), joinSep " " (l.map (fun p => p.1)))]) := by
  cases l with
  | nil => exact absurd rfl hne
  | cons p rest =>
    obtain ⟨w, dec⟩ := p
    have hd : dec = true := hall (w, dec) (by simp)
    subst hd
    cases f with
    | zero => simp at hf
    | succ f =>
      simp only [maskGoF]
      rw [if_pos trivial]
      have htw : rest.takeWhile (fun p => p.2) = rest := by
        rw [List.takeWhile_eq_self_iff]
        intro q hq
        exact hall q (by simp [hq])
      have hdw : rest.dropWhile (fun p => p.2) = [] := by
        rw [List.dropWhile_eq_nil_iff]
        intro q hq
        exact hall q (by simp [hq])
      rw [htw, hdw, maskGoF_nil]
      simp

/-- Match of the translator-side untranslatable marker at a position: Python
`re.search(r"<\\s*m[a]*sk[a]*", part, re.IGNORECASE)` matches a `<`, optional
whitespace, `m`, a greedy run of `a`s, then `s` and `k` (case-insensitive). -/
def maskPatAt (l : List Char) : Bool :=
  match l with
  | '<' :: r =>
    match r.dropWhile Char.isWhitespace with
    | c :: r2 =>
      if c.toLower == 'm' then
        match r2.dropWhile (fun d => d.toLower == 'a') with
        | c2 :: c3 :: _ => c2.toLower == 's' && c3.toLower == 'k'
        | _ => false
      else false
    | [] => false
  | _ => false

/-- Whether the mask marker occurs anywhere in `s`. -/
def searchMask (s : String) : Bool := s.data.tails.any maskPatAt

/-- First fragment of `frags` (in order) that is a prefix of `l`. -/
def matchFrag (frags : List String) (l : List Char) : Option (List Char) :=
  frags.findSome? (fun fr => if !fr.data.isEmpty && listPre fr.data l then some fr.data else none)

/-- Python `re.sub(r"\\s+(frag1|frag2|...)", r"\\1", s)`: collapse a whitespace
run that directly precedes one of the fragments.  Fuel-indexed scanner. -/
def collapseWsF (frags : List String) : Nat → List Char → List Char
  | 0, l => l
  | _ + 1, [] => []
  | f + 1, c :: rest =>
    if c.isWhitespace then
      let after := (c :: rest).dropWhile Char.isWhitespace
      match matchFrag frags after with
      | some fr => fr ++ collapseWsF frags f (after.drop fr.length)
      | none => c :: collapseWsF frags f rest
    else c :: collapseWsF frags f rest

/-- Fragments of the contraction re-glue regex on `masked_text`
(`xglish_mixer.py` line 149). -/
def CONTR_FRAGS : List String := ["n\x27t", "\x27s", "\x27re", "\x27ll", "\x27ve", "\x27d", "\x27m"]

/-- `re.sub(r"\\s+(n\x27t|\x27s|\x27re|\x27ll|\x27ve|\x27d|\x27m)", r"\\1", s)`. -/
def fixContr (s : String) : String := (collapseWsF CONTR_FRAGS s.data.length s.data).asString

/-- Fragments of the punctuation re-glue regex used by the v2 paths. -/
def PUNCT_FRAGS : List String := [",", ".", "?", "!", ";", ":"]

/-- `re.sub(r"\\s+([,\\.\\?\\!\\;\\:])", r"\\1", s)`. -/
def fixPunct (s : String) : String := (collapseWsF PUNCT_FRAGS s.data.length s.data).asString

/-- Head match of `VAR_(\\d+)` (IGNORECASE): on success, the captured digits
and the remaining characters. -/
def matchVar : List Char → Option (List Char × List Char)
  | c1 :: c2 :: c3 :: c4 :: rest =>
    if c1.toLower == 'v' && c2.toLower == 'a' && c3.toLower == 'r' && c4 == '_' then
      let ds := rest.takeWhile Char.isDigit
      if ds.isEmpty then none
      else some (ds, rest.dropWhile Char.isDigit)
    else none
  | _ => none

/-- Head match of `\\x7b\\x7b\\s*(\\d+)\\s*\\x7d\\x7d` (the brace-delimited
placeholder pattern). -/
def matchBrace : List Char → Option (List Char × List Char)
  | '\x7b' :: '\x7b' :: rest =>
    let r1 := rest.dropWhile Char.isWhitespace
    let ds := r1.takeWhile Char.isDigit
    if ds.isEmpty then none
    else
      match (r1.dropWhile Char.isDigit).dropWhile Char.isWhitespace with
      | '\x7d' :: '\x7d' :: rem => some (ds, rem)
      | _ => none
  | _ => none

/-- `re.split` for a pattern with a single capture group: returns the
alternating literal / captured-digit pieces.  Fuel-indexed scanner. -/
def splitTokF (m : List Char → Option (List Char × List Char)) :
    Nat → List Char → List Char → List String
  | 0, cur, _ => [cur.reverse.asString]
  | _ + 1, cur, [] => [cur.reverse.asString]
  | f + 1, cur, c :: rest =>
    match m (c :: rest) with
    | some (ds, rem) => cur.reverse.asString :: ds.asString :: splitTokF m f [] rem
    | none => splitTokF m f (c :: cur) rest

/-- `re.split(token_pattern, translated_markup)` (`xglish_mixer.py` lines 155-160). -/
def splitTokens (fmt : Bool) (s : String) : List String :=
  splitTokF (if fmt then matchBrace else matchVar) s.data.length [] s.data

/-- Conditional schwa deletion on one romanized word
(`xglish_mixer.py` lines 202-208). -/
def schwaWord (enabled : Bool) (sfx : List String) (w : String) : String :=
  if enabled && decide (3 < w.data.length) && strEnds w "a" then
    let vowelPen := ['a', 'e', 'i', 'o', 'u'].contains (w.data.getD (w.data.length - 2) ' ')
    if !vowelPen && !(sfx.any (fun t => strEnds w t)) then
      w.data.dropLast.asString
    else w
  else w

/-- Processing of one literal (non-placeholder) segment
(`xglish_mixer.py` lines 178-209): mask-marker passthrough, transliteration to
RomanColloquial, ordered phonetic fixes, and per-word schwa deletion. -/
def romanizeSeg (env : Env) (lang : String) (part : String) : String :=
  if pyStrip part ≠ "" then
    if searchMask part then part
    else
      let roman := env.translit (get_script_name lang) "RomanColloquial" part
      let roman2 := (PHONETIC_FIXES lang).foldl (fun r kv => pyReplace r kv.1 kv.2) roman
      joinSep " " ((pySplitWs roman2).map
        (schwaWord (is_schwa_deletion_enabled lang) (SCHWA_PROTECTION_RULES lang)))
  else part

/-- The restoration loop (`xglish_mixer.py` lines 169-212) over the pieces of
`re.split`: alternating literal and placeholder-id segments, driven by the
`is_id_part` flag; unknown placeholder ids fall back to the literal `(id)`. -/
def restoreGo (env : Env) (lang : String) (fmt : Bool) (kept : List (String × String)) :
    Bool → List String → List String
  | _, [] => []
  | true, p :: rest =>
    (List.lookup (mkTokenS fmt p) kept).getD ("(" ++ p ++ ")")
      :: restoreGo env lang fmt kept false rest
  | false, p :: rest =>
    romanizeSeg env lang p :: restoreGo env lang fmt kept true rest

/-- Final join (`xglish_mixer.py` lines 253-265): skip empty pieces, insert one
space when two alphanumeric characters would otherwise touch. -/
def joinSmartGo : List String → List String → List String
  | out, [] => out.reverse
  | out, p :: rest =>
    if p = "" then joinSmartGo out rest
    else
      match out with
      | [] => joinSmartGo (p :: out) rest
      | prev :: _ =>
        if (prev.data.getLast?.getD ' ').isAlphanum && (p.data.head?.getD ' ').isAlphanum then
          joinSmartGo (p :: " " :: out) rest
        else joinSmartGo (p :: out) rest

/-- `"".join(output)` over the reconciled pieces. -/
def joinSmart (parts : List String) : String := joinSep "" (joinSmartGo [] parts)

/-- Decision phase (`xglish_mixer.py` lines 94-104): per-token cleaning, tag
lookup (`tags.get(clean) or tags.get(word)`) and classification. -/
def decisionsOf (env : Env) (thr : ℚ) (words : List String) : List Bool :=
  (List.enumFrom 0 words).map (fun iw =>
    let clean := pyClean iw.2
    is_keep_word env clean (tagLookup env clean iw.2) iw.1 thr)

/-- Decisions after the cohesion pass (`xglish_mixer.py` lines 106-118). -/
def cohesionOf (env : Env) (thr : ℚ) (words : List String) : List Bool :=
  cohesionPass (canFlipAt env words) (decisionsOf env thr words)

/-- Masking phase output: `masked_words` and the placeholder map `kept_words`. -/
def maskedOf (env : Env) (thr : ℚ) (words : List String) : List String × List (String × String) :=
  maskLoop env.isIndic (words.zip (cohesionOf env thr words))

/-- The masked text handed to the translator (`masked_text` after the
contraction re-glue, `xglish_mixer.py` lines 148-149). -/
def maskedTextOf (env : Env) (thr : ℚ) (words : List String) : String :=
  fixContr (joinSep " " (maskedOf env thr words).1)

/-- `process_mixed_english` from the tokenized word list onward
(`xglish_mixer.py` lines 94-265): classify, cohesion-correct, mask, translate,
split, restore/romanize, join. -/
def mixOne (env : Env) (thr : ℚ) (lang : String) (words : List String) : String :=
  let masked := maskedOf env thr words
  let markup := env.translate (maskedTextOf env thr words) lang
  let parts := splitTokens env.isIndic markup
  joinSmart (restoreGo env lang env.isIndic masked.2 false parts)

/-- Curly-quote normalization at the top of `process_mixed_english` (line 69). -/
def normQuotes (s : String) : String :=
  pyReplace (pyReplace (pyReplace (pyReplace s "\u201C" "\"") "\u201D" "\"") "\u2018" "\x27")
    "\u2019" "\x27"

/-- Full `process_mixed_english`: normalize quotes, tokenize (external
collaborator), then the mixing pipeline. -/
def process_mixed_english (env : Env) (text : String) (thr : ℚ) (lang : String) : String :=
  mixOne env thr lang (env.tokenize (normQuotes text))

/-- Python blank normalization in `translate_texts_indictrans2` (line 141):
`t if t and t.strip() else ""`. -/
def normBlank (t : String) : String :=
  if t ≠ "" ∧ pyStrip t ≠ "" then t else ""

/-- `translate_texts_indictrans2` (`translator_service.py` lines 138-163) with
the GPU backend as a fallible oracle: the `try` body either succeeds with the
backend result or raises, and the `except` branch returns the (blank
normalized) input list `texts`. -/
def translate_texts_indictrans2 (backend : List String → String → Except Unit (List String))
    (texts : List String) (lang : String) : List String :=
  if texts = [] then []
  else
    let ts := texts.map normBlank
    match backend ts lang with
    | Except.ok rs => rs
    | Except.error _ => ts

/-- A queued batch request `(req_id, text, target_lang, future)` of the
scheduler, with the completion signal abstracted away. -/
structure BReq where
  rid : Nat
  text : String
  lang : String
deriving DecidableEq

/-- Worker processing of one collected batch (`translator_service.py` lines
228-247): one bulk translator call, positional distribution with the overflow
guard `translations[i] if i < len(translations) else texts[i]`, and the lang
of the first request used for the whole batch.  The worker `except` branch
(lines 241-247) would resolve every request with its own original text; it is
unreachable here because `translate_texts_indictrans2` catches its own
exceptions and is total. -/
def processBatchOnce (backend : List String → String → Except Unit (List String))
    (batch : List BReq) : List (Nat × String) :=
  let texts := batch.map (fun r => r.text)
  let lang := (batch.headD ⟨0, "", ""⟩).lang
  let translations := translate_texts_indictrans2 backend texts lang
  (List.enumFrom 0 batch).map (fun p =>
    (p.2.rid, if p.1 < translations.length then translations.getD p.1 "" else texts.getD p.1 ""))

/-- The greedy drain loop of `_process_queue` (lines 219-225): keep draining
already-queued requests while the batch is below `max_batch_size` and the
drain-time budget has not elapsed (`timeOk` oracle, one probe per loop test);
an empty queue breaks out.  Fuel-indexed by the queue length. -/
def drainLoopF (maxB : Nat) (timeOk : Nat → Bool) :
    Nat → List BReq → List BReq → Nat → List BReq × List BReq
  | 0, batch, queued, _ => (batch, queued)
  | f + 1, batch, queued, k =>
    if decide (batch.length < maxB) && timeOk k then
      match queued with
      | [] => (batch, [])
      | q :: rest => drainLoopF maxB timeOk f (batch ++ [q]) rest (k + 1)
    else (batch, queued)

/-- One drain cycle of the worker after the first request arrives: the
collected batch, and the single bulk call it issues (all collected texts, and
the target language `batch[0][2]` of the first request). -/
def drainCycle (maxB : Nat) (timeOk : Nat → Bool) (first : BReq) (queued : List BReq) :
    List BReq × (List String × String) :=
  let r := drainLoopF maxB timeOk queued.length [first] queued 0
  (r.1, (r.1.map (fun q => q.text), (r.1.headD first).lang))

/-- Collaborators of `translate_batch_libretranslate`; each step inside the
Python `try` may raise, modelled as `Except Unit`. -/
structure LibreEnv where
  extractMask : String → Except Unit (String × List (String × String))
  restoreNouns : String → List (String × String) → Except Unit String
  loadLanguages : Except Unit (List String)
  getTranslation : String → String → Except Unit (Option (String → Except Unit String))

/-- Body of the `try` block of `translate_batch_libretranslate`
(`translator_service.py` lines 52-73): optional noun masking, language table
lookup (missing source/target or missing translator short-circuits to the
input text), the translator call, optional noun restoration. -/
def ltBody (E : LibreEnv) (text target : String) (preserve : Bool) : Except Unit String :=
  match (if preserve then E.extractMask text else Except.ok (text, [])) with
  | Except.error e => Except.error e
  | Except.ok mk =>
    match E.loadLanguages with
    | Except.error e => Except.error e
    | Except.ok langs =>
      if !(langs.contains "en") || !(langs.contains target) then Except.ok text
      else
        match E.getTranslation "en" target with
        | Except.error e => Except.error e
        | Except.ok none => Except.ok text
        | Except.ok (some tr) =>
          match tr mk.1 with
          | Except.error e => Except.error e
          | Except.ok translated =>
            if preserve && !mk.2.isEmpty then
              match E.restoreNouns translated mk.2 with
              | Except.error e => Except.error e
              | Except.ok r => Except.ok r
            else Except.ok translated

/-- `translate_batch_libretranslate` (`translator_service.py` lines 49-76):
blank-input passthrough, then the `try` body with `except: return text`. -/
def translate_batch_libretranslate (E : LibreEnv) (text target : String) (preserve : Bool) :
    String :=
  if text = "" ∨ pyStrip text = "" then text
  else
    match ltBody E text target preserve with
    | Except.ok r => r
    | Except.error _ => text

/-- `COMMON_ENGLISH_WORDS` from `xglish_mixer.py` (lines 267-274). -/
def COMMON_ENGLISH_WORDS : List String :=
  ["hello", "hi", "bye", "goodbye", "ok", "okay", "thanks", "thank", "sorry",
   "please", "yes", "no", "maybe", "sure", "cool", "nice", "great", "awesome",
   "wow", "oh", "hey", "hmm", "yeah", "yep", "nope", "fine", "good", "bad",
   "love", "like", "hate", "want", "need", "miss", "happy", "sad", "angry",
   "computer", "phone", "internet", "email", "password", "app", "website",
   "video", "photo", "music", "movie", "game", "online", "offline"]

/-- Per-item post-processing of the v2 batch branch
(`process_batch_mixed_english` lines 328-345): romanize the translation,
re-tokenize, restore common/tech words positionally, join, fix punctuation. -/
def postV2 (env : Env) (lang origText translated : String) : String :=
  let script := get_script_name lang
  let romanized :=
    if script ≠ "" then env.translit script "RomanReadable" translated else translated
  let origWords := env.wordTokenize origText
  let romWords := env.wordTokenize romanized
  let restored := (List.enumFrom 0 origWords).foldl (fun acc jw =>
    let wl := pyLower jw.2
    if COMMON_ENGLISH_WORDS.contains wl || env.tech wl then
      if jw.1 < acc.length then acc.set jw.1 jw.2 else acc
    else acc) romWords
  fixPunct (joinSep " " restored)

/-- `process_batch_mixed_english` (`xglish_mixer.py` lines 314-349). -/
def process_batch_mixed_english (env : Env)
    (backend : List String → String → Except Unit (List String))
    (texts : List String) (thr : ℚ) (lang : String) (useV2 : Bool) : List String :=
  if texts = [] then []
  else if useV2 && env.isIndic then
    let translations := translate_texts_indictrans2 backend texts lang
    (texts.zip translations).map (fun p => postV2 env lang p.1 p.2)
  else
    texts.map (fun t => process_mixed_english env t thr lang)

/-- A small concrete environment used to instantiate hypothesis-bearing
theorems on concrete inputs. -/
def envA : Env where
  tech := fun w => w == "api"
  manual := fun w => w == "bhai"
  formality := fun w => if w == "nasa" then some 0 else none
  zipf := fun _ => 5
  tags := fun w => if w == "send" then some "VB" else if w == "never" then some "RB" else none
  translate := fun t _ => t
  translit := fun _ _ t => t
  tokenize := fun s => pySplitWs s
  wordTokenize := fun s => pySplitWs s
  isIndic := false

/-- C2: the classifier is a pure function of its token, tag, index, threshold
and the static resources, evaluated in fixed priority order with the first
matching rule winning: contraction fragments translate; tech terms keep; the
manual whitelist keeps; verb-tagged tokens translate; and a token that reaches
the formality rule with score `s` is kept iff `s ≥ 10 - formalityThreshold`,
before the acronym, capitalization and frequency rules can apply (the
conclusion holds for every `env.zipf` oracle and every casing of the word). -/
theorem c2_classifier_priority (env : Env) (word : String) (tag : Option String)
    (index : Nat) (thr : ℚ) :
    ((CONTRACTIONS.contains (pyLower word) || strEnds (pyLower word) "n\x27t") = true →
      is_keep_word env word tag index thr = false)
    ∧ (pyStrip word ≠ "" →
      (CONTRACTIONS.contains (pyLower word) || strEnds (pyLower word) "n\x27t") = false →
      env.tech (pyLower word) = true →
      is_keep_word env word tag index thr = true)
    ∧ (pyStrip word ≠ "" →
      (CONTRACTIONS.contains (pyLower word) || strEnds (pyLower word) "n\x27t") = false →
      env.tech (pyLower word) = false →
      env.manual (pyLower word) = true →
      is_keep_word env word tag index thr = true)
    ∧ (pyStrip word ≠ "" →
      (CONTRACTIONS.contains (pyLower word) || strEnds (pyLower word) "n\x27t") = false →
      env.tech (pyLower word) = false →
      env.manual (pyLower word) = false →
      (tagTruthy tag && tagStarts tag "VB") = true →
      is_keep_word env word tag index thr = false)
    ∧ (∀ s : ℚ, pyStrip word ≠ "" →
      (CONTRACTIONS.contains (pyLower word) || strEnds (pyLower word) "n\x27t") = false →
      env.tech (pyLower word) = false →
      env.manual (pyLower word) = false →
      (tagTruthy tag && tagStarts tag "VB") = false →
      env.formality (pyLower word) = some s →
      (is_keep_word env word tag index thr = true ↔ (10 : ℚ) - thr ≤ s)) := by
  refine ⟨?_, ?_, ?_, ?_, ?_⟩
  · intro h1
    unfold is_keep_word
    by_cases h0 : (pyStrip word == "") = true
    · rw [if_pos h0]
    · rw [if_neg h0, if_pos h1]
  · intro h0 h1 h2
    unfold is_keep_word
    rw [if_neg (by simp [beq_eq_false_iff_ne.mpr h0]), if_neg (by rw [h1]; simp), if_pos h2]
  · intro h0 h1 h2 h3
    unfold is_keep_word
    rw [if_neg (by simp [beq_eq_false_iff_ne.mpr h0]), if_neg (by rw [h1]; simp),
      if_neg (by simp [h2]), if_pos h3]
  · intro h0 h1 h2 h3 h4
    unfold is_keep_word
    rw [if_neg (by simp [beq_eq_false_iff_ne.mpr h0]), if_neg (by rw [h1]; simp),
      if_neg (by simp [h2]), if_neg (by simp [h3]), if_pos h4]
  · intro s h0 h1 h2 h3 h4 h5
    unfold is_keep_word
    rw [if_neg (by simp [beq_eq_false_iff_ne.mpr h0]), if_neg (by rw [h1]; simp),
      if_neg (by simp [h2]), if_neg (by simp [h3]), if_neg (by simp [h4]), h5]
    exact decide_eq_true_iff

/-- Witness for C2: the all-uppercase token `"NASA"` carries the low formality
score 0, so rule 5 translates it even though the acronym rule would keep it. -/
theorem c2_classifier_priority_witness : is_keep_word envA "NASA" none 1 7 = false := by
  have h := (c2_classifier_priority envA "NASA" none 1 7).2.2.2.2 0 (by decide) (by decide)
    (by decide) (by decide) (by decide) (by decide)
  have hn : ¬((10 : ℚ) - 7 ≤ 0) := by norm_num
  cases hres : is_keep_word envA "NASA" none 1 7 with
  | false => rfl
  | true => exact absurd (h.mp hres) hn

/-- The full deletion condition of the schwa step, as one boolean. -/
def schwaCond (lang : String) (w : String) : Bool :=
  is_schwa_deletion_enabled lang && decide (3 < w.data.length) && strEnds w "a"
    && !(['a', 'e', 'i', 'o', 'u'].contains (w.data.getD (w.data.length - 2) ' '))
    && !((SCHWA_PROTECTION_RULES lang).any (fun t => strEnds w t))

/-- C3: a trailing `a` of a romanized word is deleted iff schwa deletion is
enabled for the language, the word is longer than 3 characters, it ends in
`a`, the character before last is not one of `a/e/i/o/u`, and no protected
suffix of the language matches; schwa deletion is disabled exactly for the
Dravidian languages, Sanskrit, Nepali, Assamese, Odia, Bengali, Manipuri and
Santali. -/
theorem c3_schwa_deletion (lang : String) (w : String) :
    (schwaWord (is_schwa_deletion_enabled lang) (SCHWA_PROTECTION_RULES lang) w =
      if schwaCond lang w then w.data.dropLast.asString else w)
    ∧ (schwaCond lang w = true ↔
        is_schwa_deletion_enabled lang = true ∧ 3 < w.data.length ∧ strEnds w "a" = true
          ∧ (['a', 'e', 'i', 'o', 'u'].contains (w.data.getD (w.data.length - 2) ' ')) = false
          ∧ ((SCHWA_PROTECTION_RULES lang).any (fun t => strEnds w t)) = false)
    ∧ (is_schwa_deletion_enabled lang = false ↔
        lang ∈ ["ta", "te", "kn", "ml", "sa", "ne", "as", "or", "bn", "mni", "sat"]) := by
  refine ⟨?_, ?_, ?_⟩
  · cases h1 : is_schwa_deletion_enabled lang <;>
    cases h2 : decide (3 < w.data.length) <;>
    cases h3 : strEnds w "a" <;>
    cases h4 : ['a', 'e', 'i', 'o', 'u'].contains (w.data.getD (w.data.length - 2) ' ') <;>
    cases h5 : (SCHWA_PROTECTION_RULES lang).any (fun t => strEnds w t) <;>
    (simp only [schwaWord, schwaCond, h1, h2, h3, h4, h5]; simp)
  · simp [schwaCond, Bool.and_eq_true, Bool.not_eq_true', decide_eq_true_eq, and_assoc]
  · rw [is_schwa_deletion_enabled, Bool.not_eq_false', List.elem_iff]
    exact Iff.rfl

/-- C9: when a parsed placeholder id is not a key of the placeholder map, the
Restorer substitutes the literal `(id)` and continues with the remaining
segments. -/
theorem c9_defensive_lookup (env : Env) (lang : String) (fmt : Bool)
    (kept : List (String × String)) (p : String) (rest : List String)
    (h : List.lookup (mkTokenS fmt p) kept = none) :
    restoreGo env lang fmt kept true (p :: rest)
      = ("(" ++ p ++ ")") :: restoreGo env lang fmt kept false rest := by
  have e1 : restoreGo env lang fmt kept true (p :: rest)
      = (List.lookup (mkTokenS fmt p) kept).getD ("(" ++ p ++ ")")
        :: restoreGo env lang fmt kept false rest := rfl
  rw [e1, h]
  rfl

/-- Witness for C9: an empty map and the orphan id `7`. -/
theorem c9_defensive_lookup_witness :
    restoreGo envA "hi" false [] true ["7", "x"] = ["(7)", "x"] := by
  rw [c9_defensive_lookup envA "hi" false [] "7" ["x"] rfl]
  decide

/-- C4: the cohesion pass is one left-to-right sweep; position `j` of the
result equals the closed-form `cohesionNew`, i.e. a keep decision is flipped
to translate exactly when the token is weak-tagged and not a tech term
(`canFlipAt`) and its immediate left neighbor (in its already-updated state)
or right neighbor (original state) is translate; the length is unchanged and
no translate decision is ever turned into keep. -/
theorem c4_cohesion_flip (env : Env) (words : List String) (d : List Bool) (j : Nat)
    (hj : j < d.length) :
    ((cohesionPass (canFlipAt env words) d).length = d.length)
    ∧ (cohesionPass (canFlipAt env words) d).getD j false
        = cohesionNew (canFlipAt env words) d j
    ∧ ((cohesionPass (canFlipAt env words) d).getD j false = true → d.getD j false = true) := by
  refine ⟨cohesionPass_length _ d, cohesionPass_getD _ d j hj, ?_⟩
  intro h
  rw [cohesionPass_getD _ d j hj] at h
  exact cohesionNew_le _ d j h

/-- Witness for C4: the weak adverb `"never"` (tagged RB), marked keep, next
to a translate-marked neighbor, is flipped to translate by the pass. -/
theorem c4_cohesion_flip_witness :
    (cohesionPass (canFlipAt envA ["never", "chalega"]) [true, false]).getD 0 false = false := by
  have h := (c4_cohesion_flip envA ["never", "chalega"] [true, false] 0 (by decide)).2.1
  rw [h]
  decide

/-- Elements of `parts` at placeholder positions: the restore loop starts with
`is_id_part = false` and toggles the flag at every segment. -/
def oddSegs : Bool → List String → List String
  | _, [] => []
  | true, p :: rest => p :: oddSegs false rest
  | false, _ :: rest => oddSegs true rest

theorem oddSegs_restoreGo (env : Env) (lang : String) (fmt : Bool)
    (kept : List (String × String)) :
    ∀ (parts : List String) (b : Bool),
      oddSegs b (restoreGo env lang fmt kept b parts)
        = (oddSegs b parts).map
            (fun p => (List.lookup (mkTokenS fmt p) kept).getD ("(" ++ p ++ ")")) := by
  intro parts
  induction parts with
  | nil => intro b; cases b <;> rfl
  | cons p rest ih =>
    intro b
    cases b with
    | true =>
      show (List.lookup (mkTokenS fmt p) kept).getD ("(" ++ p ++ ")")
          :: oddSegs false (restoreGo env lang fmt kept false rest)
        = (List.lookup (mkTokenS fmt p) kept).getD ("(" ++ p ++ ")")
          :: (oddSegs false rest).map
              (fun q => (List.lookup (mkTokenS fmt q) kept).getD ("(" ++ q ++ ")"))
      rw [ih false]
    | false =>
      show oddSegs true (restoreGo env lang fmt kept true rest)
        = (oddSegs true rest).map
            (fun q => (List.lookup (mkTokenS fmt q) kept).getD ("(" ++ q ++ ")"))
      exact ih true

theorem map_getD_range {α β : Type} (g : α → β) (dflt : α) :
    ∀ rs : List α, (List.range rs.length).map (fun k => g (rs.getD k dflt)) = rs.map g := by
  intro rs
  induction rs with
  | nil => rfl
  | cons r t ih =>
    rw [List.length_cons, List.range_succ_eq_map, List.map_cons, List.map_map]
    congr 1

/-- C1: masker/restorer round trip.  For every token list and decision array
of equal length: (a) the placeholder map built by the masking loop is exactly
the enumeration of the maximal keep-runs, each joined by single spaces, with
sequential placeholder ids starting at 0; (b) the number of placeholders in
the map equals the number of maximal keep-runs of the decision array; and (c)
whenever the translated markup parses to segments whose placeholder ids are
exactly the emitted ones — each exactly once, in any order — the restored
placeholder segments are exactly the original chunk texts, for any target
language and any romanization oracle. -/
theorem c1_mask_restore (fmt : Bool) (env : Env) (lang : String)
    (words : List String) (ds : List Bool) (hlen : words.length = ds.length) :
    ((maskLoop fmt (words.zip ds)).2
        = (List.enumFrom 0 (keepRuns (words.zip ds))).map
            (fun kr => (mkTokenS fmt (decRepr kr.1), joinSep " " kr.2)))
    ∧ (maskLoop fmt (words.zip ds)).2.length = countStarts ds
    ∧ ∀ parts : List String,
        List.Perm (oddSegs false parts)
          ((List.range (maskLoop fmt (words.zip ds)).2.length).map decRepr) →
        List.Perm
          (oddSegs false (restoreGo env lang fmt (maskLoop fmt (words.zip ds)).2 false parts))
          ((keepRuns (words.zip ds)).map (fun r => joinSep " " r)) := by
  have ha : (maskLoop fmt (words.zip ds)).2
      = (List.enumFrom 0 (keepRuns (words.zip ds))).map
          (fun kr => (mkTokenS fmt (decRepr kr.1), joinSep " " kr.2)) :=
    maskGoF_kept fmt (words.zip ds).length (words.zip ds) 0 le_rfl
  have hm : (maskLoop fmt (words.zip ds)).2.length = (keepRuns (words.zip ds)).length := by
    rw [ha, List.length_map, List.enumFrom_length]
  have hsnd : (words.zip ds).map (fun p => p.2) = ds := by
    have h2 : (words.zip ds).map Prod.snd = ds :=
      List.map_snd_zip words ds (le_of_eq hlen.symm)
    exact h2
  have hb : (maskLoop fmt (words.zip ds)).2.length = countStarts ds := by
    rw [hm]
    exact (keepRunsF_length (words.zip ds).length (words.zip ds) le_rfl).trans
      (by rw [hsnd])
  refine ⟨ha, hb, ?_⟩
  intro parts hperm
  rw [oddSegs_restoreGo]
  have h1 := hperm.map
    (fun p => (List.lookup (mkTokenS fmt p) (maskLoop fmt (words.zip ds)).2).getD
      ("(" ++ p ++ ")"))
  refine h1.trans ?_
  rw [List.map_map]
  have h3 : ∀ k ∈ List.range (maskLoop fmt (words.zip ds)).2.length,
      ((fun p => (List.lookup (mkTokenS fmt p) (maskLoop fmt (words.zip ds)).2).getD
          ("(" ++ p ++ ")")) ∘ decRepr) k
        = joinSep " " ((keepRuns (words.zip ds)).getD k []) := by
    intro k hk
    have hk' : k < (keepRuns (words.zip ds)).length := by
      rw [← hm]
      exact List.mem_range.mp hk
    show (List.lookup (mkTokenS fmt (decRepr k)) (maskLoop fmt (words.zip ds)).2).getD
        ("(" ++ decRepr k ++ ")") = _
    rw [ha]
    have h4 := lookup_kept_runs fmt (keepRuns (words.zip ds)) 0 k hk'
    rw [Nat.zero_add] at h4
    rw [h4]
    rfl
  rw [List.map_congr_left h3, hm, map_getD_range (fun r => joinSep " " r) []]

/-- Witness for C1: two keep tokens form one chunk with id 0; restoring the
parse `["", "0", ""]` recovers the chunk text. -/
theorem c1_mask_restore_witness :
    List.Perm
      (oddSegs false (restoreGo envA "hi" false
        (maskLoop false (["hi", "there"].zip [true, true])).2 false ["", "0", ""]))
      ((keepRuns (["hi", "there"].zip [true, true])).map (fun r => joinSep " " r)) :=
  (c1_mask_restore false envA "hi" ["hi", "there"] [true, true] rfl).2.2
    ["", "0", ""] (by decide)

theorem getD_replicate (n i : Nat) (h : i < n) :
    (List.replicate n true).getD i false = true := by
  rw [List.getD_eq_getElem _ _ (by simpa using h)]
  simp

theorem cohesionNew_replicate (cf : Nat → Bool) (n : Nat) :
    ∀ j, j < n → cohesionNew cf (List.replicate n true) j = true := by
  intro j
  induction j with
  | zero =>
    intro hj
    by_cases hn : 0 < n - 1
    · have h1 : 1 < n := by omega
      simp [cohesionNew, List.getElem?_replicate, hj, h1]
    · simp [cohesionNew, List.getElem?_replicate, hj]
      omega
  | succ j ih =>
    intro hj
    have hprev := ih (by omega)
    by_cases hn : j + 1 < n - 1
    · have h1 : j + 1 + 1 < n := by omega
      simp [cohesionNew, List.getElem?_replicate, hj, hprev, h1]
    · simp [cohesionNew, List.getElem?_replicate, hj, hprev]
      omega

theorem cohesionPass_replicate (cf : Nat → Bool) (n : Nat) :
    cohesionPass cf (List.replicate n true) = List.replicate n true := by
  apply List.ext_getElem
  · simp [cohesionPass_length]
  · intro i h1 h2
    have hlen : (cohesionPass cf (List.replicate n true)).length = n := by
      rw [cohesionPass_length, List.length_replicate]
    have hi : i < n := by rw [hlen] at h1; exact h1
    have hg := cohesionPass_getD cf (List.replicate n true) i (by simpa using hi)
    rw [List.getD_eq_getElem _ _ h1] at hg
    rw [hg, cohesionNew_replicate cf n i hi]
    simp

theorem joinSep_single (sep x : String) : joinSep sep [x] = x := by
  unfold joinSep
  rw [show List.map (fun t : String => t.data) [x] = [x.data] from rfl]
  rw [show List.intercalate sep.data [x.data] = x.data from by simp [List.intercalate]]
  cases x
  rfl

theorem fixContr_token : ∀ fmt : Bool, fixContr (mkTokenS fmt (decRepr 0)) = mkTokenS fmt (decRepr 0) := by
  intro fmt
  cases fmt <;> decide

theorem splitTokens_token : ∀ fmt : Bool, splitTokens fmt (mkTokenS fmt (decRepr 0)) = ["", "0", ""] := by
  intro fmt
  cases fmt <;> decide

theorem romanizeSeg_empty (env : Env) (lang : String) : romanizeSeg env lang "" = "" := by
  unfold romanizeSeg
  rw [if_neg (by decide)]

theorem joinSmart_triple (c : String) : joinSmart ["", c, ""] = c := by
  by_cases hc : c = ""
  · subst hc; decide
  · have e1 : joinSmartGo [] ["", c, ""] = [c] := by
      simp [joinSmartGo, hc]
    unfold joinSmart
    rw [e1]
    exact joinSep_single "" c

/-- C5: pure-keep identity.  When every token is classified keep, the cohesion
pass changes nothing, the masked string sent to the translator is exactly one
placeholder token carrying no chunk text, and — provided the translator
returns that placeholder-only string unchanged — the final output of the mix
is the token list rejoined with single spaces (the input up to
tokenization/spacing normalization). -/
theorem c5_pure_keep (env : Env) (thr : ℚ) (lang : String) (words : List String)
    (hne : words ≠ [])
    (hall : decisionsOf env thr words = List.replicate words.length true)
    (htr : env.translate (maskedTextOf env thr words) lang = maskedTextOf env thr words) :
    (maskedOf env thr words).1 = [mkTokenS env.isIndic (decRepr 0)]
    ∧ maskedTextOf env thr words = mkTokenS env.isIndic (decRepr 0)
    ∧ mixOne env thr lang words = joinSep " " words := by
  have hcoh : cohesionOf env thr words = List.replicate words.length true := by
    unfold cohesionOf
    rw [hall]
    exact cohesionPass_replicate _ _
  have hzip_all : ∀ p ∈ words.zip (List.replicate words.length true), p.2 = true := by
    intro p hp
    exact List.eq_of_mem_replicate (List.of_mem_zip hp).2
  have hzip_ne : words.zip (List.replicate words.length true) ≠ [] := by
    intro h
    apply hne
    have h2 := congrArg List.length h
    simp [List.length_zip] at h2
    exact h2
  have hfst : (words.zip (List.replicate words.length true)).map (fun p => p.1) = words :=
    List.map_fst_zip words (List.replicate words.length true) (by simp)
  have hmask : maskedOf env thr words
      = ([mkTokenS env.isIndic (decRepr 0)],
         [(mkTokenS env.isIndic (decRepr 0), joinSep " " words)]) := by
    unfold maskedOf
    rw [hcoh]
    rw [show maskLoop env.isIndic (words.zip (List.replicate words.length true))
        = maskGoF env.isIndic (words.zip (List.replicate words.length true)).length
            (words.zip (List.replicate words.length true)) 0 from rfl]
    rw [maskGoF_all_keep env.isIndic _ _ 0 le_rfl hzip_ne hzip_all, hfst]
  have hmask1 : (maskedOf env thr words).1 = [mkTokenS env.isIndic (decRepr 0)] := by
    rw [hmask]
  have hmask2 : (maskedOf env thr words).2
      = [(mkTokenS env.isIndic (decRepr 0), joinSep " " words)] := by
    rw [hmask]
  have htext : maskedTextOf env thr words = mkTokenS env.isIndic (decRepr 0) := by
    unfold maskedTextOf
    rw [hmask1, joinSep_single]
    exact fixContr_token env.isIndic
  refine ⟨hmask1, htext, ?_⟩
  show joinSmart (restoreGo env lang env.isIndic (maskedOf env thr words).2 false
      (splitTokens env.isIndic (env.translate (maskedTextOf env thr words) lang)))
    = joinSep " " words
  rw [htr, htext, splitTokens_token, hmask2]
  have hrest : restoreGo env lang env.isIndic
      [(mkTokenS env.isIndic (decRepr 0), joinSep " " words)] false ["", "0", ""]
      = ["", joinSep " " words, ""] := by
    show [romanizeSeg env lang "",
        (List.lookup (mkTokenS env.isIndic "0")
          [(mkTokenS env.isIndic (decRepr 0), joinSep " " words)]).getD ("(" ++ "0" ++ ")"),
        romanizeSeg env lang ""]
      = ["", joinSep " " words, ""]
    rw [romanizeSeg_empty]
    rw [show (decRepr 0 : String) = "0" from rfl]
    simp [List.lookup]
  rw [hrest]
  exact joinSmart_triple (joinSep " " words)

/-- Witness for C5: with the identity translator, an all-keep two-token input
comes back as the two tokens joined by one space. -/
theorem c5_pure_keep_witness :
    mixOne envA 7 "hi" ["api", "bhai"] = "api bhai" := by
  have h := (c5_pure_keep envA 7 "hi" ["api", "bhai"] (by decide) (by decide) rfl).2.2
  rw [h]
  decide

/-- A concrete LibreTranslate collaborator bundle whose translator always
fails, used to instantiate witnesses. -/
def envLFail : LibreEnv where
  extractMask := fun t => Except.ok (t, [])
  restoreNouns := fun t _ => Except.ok t
  loadLanguages := Except.ok ["en", "hi"]
  getTranslation := fun _ _ => Except.ok (some (fun _ => Except.error ()))

/-- C6 (amended): fail-open translation.  Single-item path: when every
translator the dispatcher can obtain fails on every input, the operation
returns its input text unchanged instead of raising.  Batched path: when the
backend call fails, each request in the batch is resolved with the blank
normalization of its own original text — the exact original text whenever it
has non-whitespace content, `""` for whitespace-only texts. -/
theorem c6_fail_open (E : LibreEnv) (text target : String) (preserve : Bool)
    (backend : List String → String → Except Unit (List String)) (batch : List BReq)
    (i : Nat) (r : BReq)
    (hE : ∀ f, E.getTranslation "en" target = Except.ok (some f) →
      ∀ m, f m = Except.error ())
    (hfail : ∀ ts lg, backend ts lg = Except.error ())
    (hi : i < batch.length) (hr : batch[i]? = some r) :
    translate_batch_libretranslate E text target preserve = text
    ∧ (processBatchOnce backend batch)[i]? = some (r.rid, normBlank r.text) := by
  constructor
  · unfold translate_batch_libretranslate
    by_cases h0 : text = "" ∨ pyStrip text = ""
    · rw [if_pos h0]
    · rw [if_neg h0]
      unfold ltBody
      cases hmk : (if preserve then E.extractMask text else Except.ok (text, [])) with
      | error e => rfl
      | ok mk =>
        cases hl : E.loadLanguages with
        | error e => rfl
        | ok langs =>
          cases hg : E.getTranslation "en" target with
          | error e =>
            simp only [ltBody]
            split
            · next rr heq =>
              split at heq <;>
                first
                  | exact (Except.ok.inj heq).symm
                  | cases heq
            · rfl
          | ok o =>
            cases o with
            | none =>
              simp only [ltBody]
              split
              · next rr heq =>
                split at heq <;> exact (Except.ok.inj heq).symm
              · rfl
            | some tr =>
              have htr := hE tr hg mk.1
              simp only [ltBody, htr]
              split
              · next rr heq =>
                split at heq <;>
                  first
                    | exact (Except.ok.inj heq).symm
                    | cases heq
              · rfl
  · have hbne : batch ≠ [] := by
      intro hb
      rw [hb] at hi
      simp at hi
    have hne : batch.map (fun q => q.text) ≠ [] := by
      intro h
      have h2 := congrArg List.length h
      simp at h2
      exact hbne h2
    have hbatch_i : batch[i] = r := by
      rw [List.getElem?_eq_getElem hi] at hr
      exact Option.some.inj hr
    have htr2 : translate_texts_indictrans2 backend (batch.map (fun q => q.text))
        ((batch.headD ⟨0, "", ""⟩).lang) = (batch.map (fun q => q.text)).map normBlank := by
      unfold translate_texts_indictrans2
      rw [if_neg hne]
      show (match backend ((batch.map (fun q => q.text)).map normBlank)
          ((batch.headD ⟨0, "", ""⟩).lang) with
        | Except.ok rs => rs
        | Except.error _ => (batch.map (fun q => q.text)).map normBlank)
        = (batch.map (fun q => q.text)).map normBlank
      rw [hfail]
    show ((List.enumFrom 0 batch).map (fun p =>
        (p.2.rid,
          if p.1 < (translate_texts_indictrans2 backend (batch.map (fun q => q.text))
              ((batch.headD ⟨0, "", ""⟩).lang)).length
          then (translate_texts_indictrans2 backend (batch.map (fun q => q.text))
              ((batch.headD ⟨0, "", ""⟩).lang)).getD p.1 ""
          else (batch.map (fun q => q.text)).getD p.1 "")))[i]?
      = some (r.rid, normBlank r.text)
    rw [htr2, List.getElem?_map, List.getElem?_enumFrom, hr]
    have hlen : i < ((batch.map (fun q => q.text)).map normBlank).length := by
      simpa using hi
    simp [hlen, hbatch_i, List.getD_eq_getElem _ _ hlen]
    rw [if_pos hi, hr]
    rfl

/-- Counterexample to C6 as stated: a batch whose single request carries the
whitespace-only text `"  "`; the backend fails, and the request is resolved
with `""` instead of its own original text. -/
theorem c6_counterexample :
    processBatchOnce (fun _ _ => Except.error ()) [⟨0, "  ", "hi"⟩] = [(0, "")]
    ∧ ("" : String) ≠ "  " := by
  constructor
  · decide
  · decide

/-- Witness for C6: a failing translator and a one-request batch. -/
theorem c6_fail_open_witness :
    translate_batch_libretranslate envLFail "hello" "hi" false = "hello"
    ∧ (processBatchOnce (fun _ _ => Except.error ()) [⟨3, "ok", "hi"⟩])[0]?
        = some (3, "ok") := by
  have h := c6_fail_open envLFail "hello" "hi" false (fun _ _ => Except.error ())
    [⟨3, "ok", "hi"⟩] 0 ⟨3, "ok", "hi"⟩
    (by intro f hf m
        have h2 : (fun _ : String => (Except.error () : Except Unit String)) = f := by
          simpa [envLFail] using hf
        rw [← h2])
    (fun _ _ => rfl) (by decide) (by decide)
  exact ⟨h.1, h.2.trans (by decide)⟩

theorem drainLoopF_length_le (maxB : Nat) (timeOk : Nat → Bool) :
    ∀ f (batch queued : List BReq) (k : Nat),
      (drainLoopF maxB timeOk f batch queued k).1.length ≤ max batch.length maxB := by
  intro f
  induction f with
  | zero => intro batch queued k; exact Nat.le_max_left _ _
  | succ f ih =>
    intro batch queued k
    unfold drainLoopF
    by_cases hc : (decide (batch.length < maxB) && timeOk k) = true
    · rw [if_pos hc]
      cases queued with
      | nil => exact Nat.le_max_left _ _
      | cons q rest =>
        have hlt : batch.length < maxB := by
          have := (Bool.and_eq_true _ _).mp hc
          exact of_decide_eq_true this.1
        have h1 := ih (batch ++ [q]) rest (k + 1)
        have h2 : max (batch ++ [q]).length maxB = maxB := by
          apply Nat.max_eq_right
          simp
          omega
        rw [h2] at h1
        exact h1.trans (Nat.le_max_right _ _)
    · rw [if_neg hc]
      exact Nat.le_max_left _ _

theorem drainLoopF_length_ge (maxB : Nat) (timeOk : Nat → Bool) :
    ∀ f (batch queued : List BReq) (k : Nat),
      batch.length ≤ (drainLoopF maxB timeOk f batch queued k).1.length := by
  intro f
  induction f with
  | zero => intro batch queued k; exact le_rfl
  | succ f ih =>
    intro batch queued k
    unfold drainLoopF
    by_cases hc : (decide (batch.length < maxB) && timeOk k) = true
    · rw [if_pos hc]
      cases queued with
      | nil => exact le_rfl
      | cons q rest =>
        show batch.length ≤ (drainLoopF maxB timeOk f (batch ++ [q]) rest (k + 1)).1.length
        have h1 := ih (batch ++ [q]) rest (k + 1)
        simp at h1
        omega
    · rw [if_neg hc]

theorem drainLoopF_shape (maxB : Nat) (timeOk : Nat → Bool) :
    ∀ f (batch queued : List BReq) (k : Nat),
      (drainLoopF maxB timeOk f batch queued k).1
        = batch ++ queued.take ((drainLoopF maxB timeOk f batch queued k).1.length
            - batch.length) := by
  intro f
  induction f with
  | zero =>
    intro batch queued k
    show batch = batch ++ queued.take (batch.length - batch.length)
    simp
  | succ f ih =>
    intro batch queued k
    unfold drainLoopF
    by_cases hc : (decide (batch.length < maxB) && timeOk k) = true
    · rw [if_pos hc]
      cases queued with
      | nil =>
        show batch = batch ++ List.take (batch.length - batch.length) []
        simp
      | cons q rest =>
        show (drainLoopF maxB timeOk f (batch ++ [q]) rest (k + 1)).1
          = batch ++ List.take
              ((drainLoopF maxB timeOk f (batch ++ [q]) rest (k + 1)).1.length
                - batch.length) (q :: rest)
        have h1 := ih (batch ++ [q]) rest (k + 1)
        have hge := drainLoopF_length_ge maxB timeOk f (batch ++ [q]) rest (k + 1)
        simp only [List.length_append, List.length_cons, List.length_nil] at hge
        have harith : (drainLoopF maxB timeOk f (batch ++ [q]) rest (k + 1)).1.length
            - batch.length
            = ((drainLoopF maxB timeOk f (batch ++ [q]) rest (k + 1)).1.length
                - (batch ++ [q]).length) + 1 := by
          simp only [List.length_append, List.length_cons, List.length_nil]
          omega
        rw [harith, List.take_succ_cons]
        conv_lhs => rw [h1]
        simp
    · rw [if_neg hc]
      show batch = batch ++ queued.take (batch.length - batch.length)
      simp

theorem drainLoopF_timeout (maxB : Nat) (timeOk : Nat → Bool)
    (h : ∀ k, timeOk k = false) :
    ∀ f (batch queued : List BReq) (k : Nat),
      (drainLoopF maxB timeOk f batch queued k).1 = batch := by
  intro f
  cases f with
  | zero => intro batch queued k; rfl
  | succ f =>
    intro batch queued k
    unfold drainLoopF
    rw [if_neg (by simp [h k])]

/-- C7 (amended): each drain cycle collects between 1 and `max 1 maxBatchSize`
requests (the first dequeued request plus a prefix of the already-queued
ones, in order), issues exactly one bulk call whose texts are all the
collected texts, and uses the target language of the first request for the
whole batch; if the drain-time budget is already exhausted at every probe, the
batch is just the first request. -/
theorem c7_drain_cycle (maxB : Nat) (timeOk : Nat → Bool) (first : BReq)
    (queued : List BReq) :
    1 ≤ (drainCycle maxB timeOk first queued).1.length
    ∧ (drainCycle maxB timeOk first queued).1.length ≤ max 1 maxB
    ∧ (drainCycle maxB timeOk first queued).1
        = first :: queued.take ((drainCycle maxB timeOk first queued).1.length - 1)
    ∧ (drainCycle maxB timeOk first queued).2
        = ((drainCycle maxB timeOk first queued).1.map (fun q => q.text), first.lang)
    ∧ ((∀ k, timeOk k = false) → (drainCycle maxB timeOk first queued).1 = [first]) := by
  have hcy : (drainCycle maxB timeOk first queued).1
      = (drainLoopF maxB timeOk queued.length [first] queued 0).1 := rfl
  have hge := drainLoopF_length_ge maxB timeOk queued.length [first] queued 0
  simp only [List.length_cons, List.length_nil] at hge
  have hshape := drainLoopF_shape maxB timeOk queued.length [first] queued 0
  refine ⟨?_, ?_, ?_, ?_, ?_⟩
  · rw [hcy]; exact hge
  · rw [hcy]
    have := drainLoopF_length_le maxB timeOk queued.length [first] queued 0
    simpa using this
  · rw [hcy, hshape]
    simp
  · show ((drainCycle maxB timeOk first queued).1.map (fun q => q.text),
        ((drainCycle maxB timeOk first queued).1.headD first).lang)
      = ((drainCycle maxB timeOk first queued).1.map (fun q => q.text), first.lang)
    have hhead : (drainCycle maxB timeOk first queued).1.headD first = first := by
      rw [hcy, hshape]
      simp
    rw [hhead]
  · intro ht
    rw [hcy, drainLoopF_timeout maxB timeOk ht]

/-- Counterexample to C7 as stated: configured with `maxBatchSize = 0`, the
drain cycle still collects one request, exceeding the claimed bound. -/
theorem c7_counterexample :
    (drainCycle 0 (fun _ => true) ⟨0, "a", "hi"⟩ [⟨1, "b", "hi"⟩]).1.length = 1
    ∧ ¬((1 : Nat) ≤ 0) := by
  constructor
  · decide
  · decide

/-- Witness for C7: an exhausted time budget keeps the batch at the first
request only. -/
theorem c7_drain_cycle_witness :
    (drainCycle 32 (fun _ => false) ⟨0, "a", "hi"⟩ [⟨1, "b", "hi"⟩]).1
      = [⟨0, "a", "hi"⟩] :=
  (c7_drain_cycle 32 (fun _ => false) ⟨0, "a", "hi"⟩ [⟨1, "b", "hi"⟩]).2.2.2.2
    (fun _ => rfl)

/-- C8: `MixBatch` alignment.  The empty list yields the empty list; the
non-v2 branch maps `process_mixed_english` over the inputs positionally; and
on the v2 branch, provided the bulk translator returns a positionally aligned
list (its collaborator contract), the output has the same length as the input
and the entry at position `i` is the mixed form of input `i`. -/
theorem c8_mixbatch_alignment (env : Env)
    (backend : List String → String → Except Unit (List String))
    (texts : List String) (thr : ℚ) (lang : String) (useV2 : Bool)
    (hlen : (translate_texts_indictrans2 backend texts lang).length = texts.length) :
    process_batch_mixed_english env backend [] thr lang useV2 = []
    ∧ ((useV2 && env.isIndic) = false →
        process_batch_mixed_english env backend texts thr lang useV2
          = texts.map (fun t => process_mixed_english env t thr lang))
    ∧ (process_batch_mixed_english env backend texts thr lang useV2).length = texts.length
    ∧ ∀ (i : Nat) (r : String), texts[i]? = some r → (useV2 && env.isIndic) = true →
        (process_batch_mixed_english env backend texts thr lang useV2)[i]?
          = some (postV2 env lang r
              ((translate_texts_indictrans2 backend texts lang).getD i "")) := by
  refine ⟨rfl, ?_, ?_, ?_⟩
  · intro hv
    unfold process_batch_mixed_english
    by_cases h0 : texts = []
    · rw [if_pos h0, h0]
      rfl
    · rw [if_neg h0, if_neg (by rw [hv]; simp)]
  · unfold process_batch_mixed_english
    by_cases h0 : texts = []
    · rw [if_pos h0, h0]
    · rw [if_neg h0]
      by_cases hv : (useV2 && env.isIndic) = true
      · rw [if_pos hv]
        simp [List.length_zip, hlen]
      · rw [if_neg hv]
        simp
  · intro i r hr hv
    have hi : i < texts.length := by
      by_contra hcon
      push_neg at hcon
      rw [List.getElem?_eq_none hcon] at hr
      cases hr
    have h0 : texts ≠ [] := by
      intro hb
      rw [hb] at hi
      simp at hi
    have hzlen : i < (texts.zip (translate_texts_indictrans2 backend texts lang)).length := by
      rw [List.length_zip, hlen]
      simpa using hi
    unfold process_batch_mixed_english
    rw [if_neg h0, if_pos hv]
    rw [List.getElem?_map, List.getElem?_eq_getElem hzlen]
    have htexts : texts[i] = r := by
      rw [List.getElem?_eq_getElem hi] at hr
      exact Option.some.inj hr
    have htr : i < (translate_texts_indictrans2 backend texts lang).length := by
      rw [hlen]; exact hi
    simp only [Option.map_some', List.getElem_zip, htexts]
    rw [List.getD_eq_getElem _ _ htr]

/-- Witness for C8: two texts through the non-v2 branch of the batch entry
point keep count and order. -/
theorem c8_mixbatch_alignment_witness :
    process_batch_mixed_english envA (fun ts _ => Except.ok ts) ["api", "bhai"] 7 "hi" false
      = [process_mixed_english envA "api" 7 "hi", process_mixed_english envA "bhai" 7 "hi"] := by
  have h := (c8_mixbatch_alignment envA (fun ts _ => Except.ok ts) ["api", "bhai"] 7 "hi" false
    (by decide)).2.1 (by decide)
  rw [h]
  rfl

theorem lookup_of_nodup_keys : ∀ (l : List (Nat × String)) (i : Nat) (k : Nat) (v : String),
    (l.map Prod.fst).Nodup → l[i]? = some (k, v) → l.lookup k = some v := by
  intro l
  induction l with
  | nil => intro i k v _ h; cases h
  | cons p t ih =>
    intro i k v hnd h
    cases i with
    | zero =>
      simp only [List.getElem?_cons_zero, Option.some.injEq] at h
      subst h
      simp [List.lookup]
    | succ i =>
      simp only [List.getElem?_cons_succ] at h
      have hk : k ∈ t.map Prod.fst := by
        have hmem := List.getElem?_mem h
        exact List.mem_map.mpr ⟨(k, v), hmem, rfl⟩
      have hne : k ≠ p.1 := by
        intro he
        rw [List.map_cons, List.nodup_cons] at hnd
        exact hnd.1 (he ▸ hk)
      have hbeq : (k == p.1) = false := beq_eq_false_iff_ne.mpr hne
      cases p with
      | mk k1 v1 =>
        simp only [List.lookup, hbeq]
        exact ih i k v (by rw [List.map_cons, List.nodup_cons] at hnd; exact hnd.2) h

/-- C10 (implicit invariant): every request in a processed batch is resolved
with either the backend result at its own position (when the backend returned
enough items) or its own original text (overflow), never another request's
result: with distinct request ids, looking up a request's own id in the
results map yields exactly that positional value.  The worker and
`translate()` are total by construction. -/
theorem c10_resolution (backend : List String → String → Except Unit (List String))
    (batch : List BReq) (i : Nat) (r : BReq)
    (hi : i < batch.length) (hr : batch[i]? = some r) :
    ((processBatchOnce backend batch)[i]?
      = some (r.rid,
          if i < (translate_texts_indictrans2 backend (batch.map (fun q => q.text))
              ((batch.headD ⟨0, "", ""⟩).lang)).length
          then (translate_texts_indictrans2 backend (batch.map (fun q => q.text))
              ((batch.headD ⟨0, "", ""⟩).lang)).getD i ""
          else r.text))
    ∧ ((batch.map BReq.rid).Nodup →
        (processBatchOnce backend batch).lookup r.rid
          = some (if i < (translate_texts_indictrans2 backend (batch.map (fun q => q.text))
                ((batch.headD ⟨0, "", ""⟩).lang)).length
            then (translate_texts_indictrans2 backend (batch.map (fun q => q.text))
                ((batch.headD ⟨0, "", ""⟩).lang)).getD i ""
            else r.text)) := by
  have hbatch_i : batch[i] = r := by
    rw [List.getElem?_eq_getElem hi] at hr
    exact Option.some.inj hr
  have hpos : (processBatchOnce backend batch)[i]?
      = some (r.rid,
          if i < (translate_texts_indictrans2 backend (batch.map (fun q => q.text))
              ((batch.headD ⟨0, "", ""⟩).lang)).length
          then (translate_texts_indictrans2 backend (batch.map (fun q => q.text))
              ((batch.headD ⟨0, "", ""⟩).lang)).getD i ""
          else r.text) := by
    show ((List.enumFrom 0 batch).map (fun p =>
        (p.2.rid,
          if p.1 < (translate_texts_indictrans2 backend (batch.map (fun q => q.text))
              ((batch.headD ⟨0, "", ""⟩).lang)).length
          then (translate_texts_indictrans2 backend (batch.map (fun q => q.text))
              ((batch.headD ⟨0, "", ""⟩).lang)).getD p.1 ""
          else (batch.map (fun q => q.text)).getD p.1 "")))[i]?
      = _
    rw [List.getElem?_map, List.getElem?_enumFrom, hr]
    simp only [Option.map_some', Nat.zero_add]
    congr 2
    by_cases hc : i < (translate_texts_indictrans2 backend (batch.map (fun q => q.text))
        ((batch.headD ⟨0, "", ""⟩).lang)).length
    · rw [if_pos hc, if_pos hc]
    · rw [if_neg hc, if_neg hc]
      have hmlen : i < (batch.map (fun q => q.text)).length := by simpa using hi
      rw [List.getD_eq_getElem _ _ hmlen]
      simp [hbatch_i]
  refine ⟨hpos, ?_⟩
  intro hnd
  have hkeys : (processBatchOnce backend batch).map Prod.fst = batch.map BReq.rid := by
    unfold processBatchOnce
    rw [List.map_map]
    have : ((fun p : Nat × String => p.1) ∘ (fun p : Nat × BReq =>
        (p.2.rid,
          if p.1 < (translate_texts_indictrans2 backend (batch.map (fun q => q.text))
              ((batch.headD ⟨0, "", ""⟩).lang)).length
          then (translate_texts_indictrans2 backend (batch.map (fun q => q.text))
              ((batch.headD ⟨0, "", ""⟩).lang)).getD p.1 ""
          else (batch.map (fun q => q.text)).getD p.1 "")))
        = (fun p : Nat × BReq => p.2.rid) := rfl
    rw [this]
    rw [show (fun p : Nat × BReq => p.2.rid) = (BReq.rid ∘ Prod.snd) from rfl]
    rw [← List.map_map, List.enumFrom_map_snd]
  apply lookup_of_nodup_keys _ i
  · rw [hkeys]
    exact hnd
  · exact hpos

/-- Witness for C10: a backend returning a single translation resolves the
only request with that translation at its own position. -/
theorem c10_resolution_witness :
    (processBatchOnce (fun _ _ => Except.ok ["namaste"]) [⟨5, "hello", "hi"⟩]).lookup 5
      = some "namaste" := by
  have h := (c10_resolution (fun _ _ => Except.ok ["namaste"]) [⟨5, "hello", "hi"⟩] 0
    ⟨5, "hello", "hi"⟩ (by decide) (by decide)).2 (by decide)
  exact h.trans (by decide)

end Xglish
